import Mathlib

/-!
Verification development for the Hack assembler (`projects/06/Assembler.py`).

The assembler consumes a list of normalized command strings and produces a
list of 16-character binary words via a two-pass algorithm: pass 1 collects
labels into a symbol table, pass 2 resolves symbols (labels, predefined
names, freshly allocated variables) and encodes each command.

Commands are modelled as Lean `String`s and all character-level operations
(`split`, `rjust`, `isdigit`, `bin`, membership tests) are translated from
the Python source into structural recursion over `String.data`.
-/

/-- Membership test for a character in a character list (Python `in` on a string). -/
def hasChar : List Char → Char → Bool
  | [], _ => false
  | c :: cs, x => if c = x then true else hasChar cs x

/-- Everything strictly before the first occurrence of `x` (Python `s.split(x)[0]`);
the whole list when `x` is absent. -/
def beforeChar : List Char → Char → List Char
  | [], _ => []
  | c :: cs, x => if c = x then [] else c :: beforeChar cs x

/-- Everything strictly after the first occurrence of `x`; `[]` when `x` is absent.
Python `s.split(x)[1]` (defined when `x` occurs) is `beforeChar (afterChar l x) x`:
the segment between the first and second occurrence of `x`. -/
def afterChar : List Char → Char → List Char
  | [], _ => []
  | c :: cs, x => if c = x then cs else afterChar cs x

/-- Index of the first occurrence of `x` (length of the list when absent). -/
def firstIdx : List Char → Char → Nat
  | [], _ => 0
  | c :: cs, x => if c = x then 0 else firstIdx cs x + 1

/-- Python `str.isdigit` restricted to ASCII: nonempty and all decimal digits. -/
def isDigitStr (l : List Char) : Bool :=
  match l with
  | [] => false
  | _ => l.all (fun c => c.isDigit)

/-- Python `int` on a decimal digit string. -/
def strToNat (l : List Char) : Nat :=
  l.foldl (fun a c => 10 * a + (c.toNat - ('0').toNat)) 0

/-- The binary digit character for a bit value. -/
def bitChar (n : Nat) : Char := if n = 1 then '1' else '0'

/-- Fuel-driven most-significant-bit-first binary digits of `n` (empty for `0`).
The fuel argument makes the recursion structural; any fuel `≥ n` suffices. -/
def binDigitsAux : Nat → Nat → List Char
  | 0, _ => []
  | fuel + 1, n => if n = 0 then [] else binDigitsAux fuel (n / 2) ++ [bitChar (n % 2)]

/-- Binary digits of `n`, most significant first; `[]` for `0`. -/
def binDigits (n : Nat) : List Char := binDigitsAux n n

/-- Python `bin(n)[2:]` for a nonnegative `n`: `"0"` for zero, else the digits. -/
def pyBin (n : Nat) : List Char := if n = 0 then ['0'] else binDigits n

/-- Numeric value of one binary digit character. -/
def bitVal (c : Char) : Nat := if c = '1' then 1 else 0

/-- Numeric value of a most-significant-bit-first binary digit list. -/
def bitsVal (l : List Char) : Nat :=
  l.foldl (fun a c => 2 * a + bitVal c) 0

/-- Python `s.rjust(w, fill)`: left-pad to width `w`, unchanged when already wide. -/
def rjust (w : Nat) (fill : Char) (l : List Char) : List Char :=
  if w ≤ l.length then l else List.replicate (w - l.length) fill ++ l

/-- The word the assembler emits for an address command resolved to value `n`
(source lines 129–131: `"0" + bin(int(symbol))[2:]` then `rjust(16, "0")`). -/
def encodeAddr (n : Nat) : String := ⟨rjust 16 '0' ('0' :: pyBin n)⟩

/-- The word the spec describes for a literal address `n`: leading bit 0 followed by
the 15-bit binary representation of `n`, zero-padded on the left. -/
def specWordA (n : Nat) : String :=
  ⟨'0' :: (List.replicate (15 - (pyBin n).length) '0' ++ pyBin n)⟩

/-- The three command kinds of `Parser.command_type`. -/
inductive CmdKind where
  | A_COMMAND
  | C_COMMAND
  | L_COMMAND
  deriving DecidableEq

/-- `Parser.command_type`: classify by first character (`@` address, `(` label,
otherwise computation). Normalized commands are nonempty; the empty string is
mapped to `C_COMMAND` as a total default. -/
def Parser.command_type (c : String) : CmdKind :=
  match c.data with
  | [] => CmdKind.C_COMMAND
  | ch :: _ =>
    if ch = '@' then CmdKind.A_COMMAND
    else if ch = '(' then CmdKind.L_COMMAND
    else CmdKind.C_COMMAND

/-- `Parser.symbol`: `current_command[1:]` for an address command,
`current_command[1:-1]` for a label command. -/
def Parser.symbol (c : String) : String :=
  if Parser.command_type c = CmdKind.A_COMMAND then ⟨c.data.tail⟩
  else ⟨c.data.tail.dropLast⟩

/-- `Parser.dest`: the part before the first `=` when `=` occurs, else `None`. -/
def Parser.dest (c : String) : Option String :=
  if hasChar c.data '=' then some ⟨beforeChar c.data '='⟩ else none

/-- `Parser.comp`, translated clause for clause from the source:
both separators present: `split("=")[1]` then `.split(";")[0]`;
only `=`: `split("=")[1]`; otherwise: `split(";")[0]`. -/
def Parser.comp (c : String) : String :=
  if hasChar c.data '=' then
    if hasChar c.data ';' then
      ⟨beforeChar (beforeChar (afterChar c.data '=') '=') ';'⟩
    else
      ⟨beforeChar (afterChar c.data '=') '='⟩
  else
    ⟨beforeChar c.data ';'⟩

/-- `Parser.jump`: `split(";")[1]` when `;` occurs, else `None`. -/
def Parser.jump (c : String) : Option String :=
  if hasChar c.data ';' then some ⟨beforeChar (afterChar c.data ';') ';'⟩ else none

/-- The four-case decomposition rule exactly as the spec words it:
between the first `=` and the first `;` when both present; after the first `=`
when only `=` present; before the first `;` when only `;` present; else the
whole command. -/
def compClaim (c : String) : String :=
  if hasChar c.data '=' then
    if hasChar c.data ';' then
      ⟨(c.data.take (firstIdx c.data ';')).drop (firstIdx c.data '=' + 1)⟩
    else ⟨c.data.drop (firstIdx c.data '=' + 1)⟩
  else
    if hasChar c.data ';' then ⟨c.data.take (firstIdx c.data ';')⟩
    else c

/-- First-match lookup in a string-keyed association list (Python `dict` access
for the dictionaries of this program, whose keys are unique). -/
def lookupTable {α : Type} : List (String × α) → String → Option α
  | [], _ => none
  | (k, v) :: t, s => if k = s then some v else lookupTable t s

/-- `Code.dest_table`. -/
def dest_table : List (String × String) :=
  [("null", "000"), ("M", "001"), ("D", "010"), ("MD", "011"),
   ("A", "100"), ("AM", "101"), ("AD", "110"), ("AMD", "111")]

/-- `Code.comp_table` (28 entries). -/
def comp_table : List (String × String) :=
  [("0", "0101010"), ("1", "0111111"), ("-1", "0111010"), ("D", "0001100"),
   ("A", "0110000"), ("!D", "0001101"), ("!A", "0110001"), ("-D", "0001111"),
   ("-A", "0110011"), ("D+1", "0011111"), ("A+1", "0110111"), ("D-1", "0001110"),
   ("A-1", "0110010"), ("D+A", "0000010"), ("D-A", "0010011"), ("A-D", "0000111"),
   ("D&A", "0000000"), ("D|A", "0010101"), ("M", "1110000"), ("!M", "1110001"),
   ("-M", "1110011"), ("M+1", "1110111"), ("M-1", "1110010"), ("D+M", "1000010"),
   ("D-M", "1010011"), ("M-D", "1000111"), ("D&M", "1000000"), ("D|M", "1010101")]

/-- `Code.jump_table`. -/
def jump_table : List (String × String) :=
  [("null", "000"), ("JGT", "001"), ("JEQ", "010"), ("JGE", "011"),
   ("JLT", "100"), ("JNE", "101"), ("JLE", "110"), ("JMP", "111")]

/-- A failed dictionary lookup on a mnemonic (Python `KeyError`), which the spec
calls an `UnknownMnemonic` error; it aborts the whole translation. -/
inductive AsmErr where
  | unknownMnemonic (m : String)
  deriving DecidableEq

/-- The dest field emitted for a computation command (source lines 136–139):
a falsy dest (`None` or the empty string) yields `"000"`, otherwise the table
code, with a lookup miss fatal. -/
def destBits (c : String) : Except AsmErr String :=
  match Parser.dest c with
  | none => Except.ok ("000")
  | some d =>
    if d = ("") then Except.ok ("000")
    else
      match lookupTable dest_table d with
      | some v => Except.ok v
      | none => Except.error (AsmErr.unknownMnemonic d)

/-- The jump field emitted for a computation command (source lines 140–143). -/
def jumpBits (c : String) : Except AsmErr String :=
  match Parser.jump c with
  | none => Except.ok ("000")
  | some j =>
    if j = ("") then Except.ok ("000")
    else
      match lookupTable jump_table j with
      | some v => Except.ok v
      | none => Except.error (AsmErr.unknownMnemonic j)

/-- Encoding of a computation command (source lines 133–143): `"111"`, then the
7-bit computation code (lookup miss fatal), then dest bits, then jump bits. -/
def encodeC (c : String) : Except AsmErr String :=
  match lookupTable comp_table (Parser.comp c) with
  | none => Except.error (AsmErr.unknownMnemonic (Parser.comp c))
  | some cc =>
    match destBits c with
    | Except.error e => Except.error e
    | Except.ok db =>
      match jumpBits c with
      | Except.error e => Except.error e
      | Except.ok jb => Except.ok (("111") ++ cc ++ db ++ jb)

/-- The symbol table: a string-keyed map, modelled as an association list with
unique keys (insertion prepends an absent key). -/
abbrev SymbolTable := List (String × Nat)

/-- `SymbolTable.__init__`: a new empty symbol table. -/
def SymbolTable.new : SymbolTable := []

/-- `SymbolTable.get_address`. -/
def SymbolTable.get_address (t : SymbolTable) (s : String) : Option Nat :=
  lookupTable t s

/-- `SymbolTable.contains`. -/
def SymbolTable.contains (t : SymbolTable) (s : String) : Bool :=
  (SymbolTable.get_address t s).isSome

/-- `SymbolTable.add_entry`: insert only when the key is absent (first writer wins). -/
def SymbolTable.add_entry (t : SymbolTable) (s : String) (a : Nat) : SymbolTable :=
  if SymbolTable.contains t s then t else (s, a) :: t

/-- The module-level `predefined_variable_symbols` dictionary. -/
def predefined_variable_symbols : List (String × Nat) :=
  [("SP", 0), ("LCL", 1), ("ARG", 2), ("THIS", 3), ("THAT", 4),
   ("R0", 0), ("R1", 1), ("R2", 2), ("R3", 3), ("R4", 4), ("R5", 5),
   ("R6", 6), ("R7", 7), ("R8", 8), ("R9", 9), ("R10", 10), ("R11", 11),
   ("R12", 12), ("R13", 13), ("R14", 14), ("R15", 15),
   ("SCREEN", 16384), ("KBD", 24576)]

/-- Pass 1 (source lines 73–79): walk the commands with a ROM address counter
starting at `rom`; a label command registers its symbol at the current counter,
any other command increments the counter. -/
def pass1 : List String → Nat → SymbolTable → SymbolTable
  | [], _, t => t
  | c :: cs, rom, t =>
    if Parser.command_type c = CmdKind.L_COMMAND then
      pass1 cs rom (SymbolTable.add_entry t (Parser.symbol c) rom)
    else pass1 cs (rom + 1) t

/-- Pass-2 resolution of an address-command symbol (source lines 116–128):
a digit string is its own value; a symbol already in the table resolves there;
otherwise the predefined dictionary supplies the address (or the next RAM
address is allocated), the pair is recorded, and the table is read back.
Returns (resolved value, table, RAM counter). -/
def resolveA (t : SymbolTable) (ram : Nat) (s : String) : Nat × SymbolTable × Nat :=
  if isDigitStr s.data then (strToNat s.data, t, ram)
  else if SymbolTable.contains t s then
    ((SymbolTable.get_address t s).getD 0, t, ram)
  else
    match lookupTable predefined_variable_symbols s with
    | some a =>
      let t' := SymbolTable.add_entry t s a
      ((SymbolTable.get_address t' s).getD 0, t', ram)
    | none =>
      let t' := SymbolTable.add_entry t s ram
      ((SymbolTable.get_address t' s).getD 0, t', ram + 1)

/-- Prepend an emitted word onto the result of the rest of pass 2. -/
def consWord (w : String) (r : Except AsmErr (List String × SymbolTable × Nat)) :
    Except AsmErr (List String × SymbolTable × Nat) :=
  match r with
  | Except.error e => Except.error e
  | Except.ok (ws, tf, rf) => Except.ok (w :: ws, tf, rf)

/-- Pass 2 (source lines 107–145): skip labels, resolve and encode address
commands, encode computation commands; a lookup miss aborts the whole run.
Returns the emitted words together with the final table and RAM counter. -/
def pass2 : List String → SymbolTable → Nat → Except AsmErr (List String × SymbolTable × Nat)
  | [], t, ram => Except.ok ([], t, ram)
  | c :: cs, t, ram =>
    match Parser.command_type c with
    | CmdKind.L_COMMAND => pass2 cs t ram
    | CmdKind.A_COMMAND =>
      match resolveA t ram (Parser.symbol c) with
      | (v, t', ram') => consWord (encodeAddr v) (pass2 cs t' ram')
    | CmdKind.C_COMMAND =>
      match encodeC c with
      | Except.error e => Except.error e
      | Except.ok w => consWord w (pass2 cs t ram)

/-- The whole translation (`main` minus file I/O): pass 1 from ROM address 0 on
a fresh table, then pass 2 with the RAM allocation counter starting at 16. -/
def assemble (cs : List String) : Except AsmErr (List String) :=
  match pass2 cs (pass1 cs 0 SymbolTable.new) 16 with
  | Except.error e => Except.error e
  | Except.ok (ws, _, _) => Except.ok ws

/-- Number of non-label commands in a list (the instruction-memory footprint). -/
def instrCount : List String → Nat
  | [] => 0
  | c :: cs =>
    (if Parser.command_type c = CmdKind.L_COMMAND then 0 else 1) + instrCount cs

/-- Index of the first non-label command in a list, if any. -/
def findNonLabelIdx : List String → Option Nat
  | [] => none
  | c :: cs =>
    if Parser.command_type c = CmdKind.L_COMMAND then
      (findNonLabelIdx cs).map (fun i => i + 1)
    else some 0

/-- The value the claim assigns to a label at position `j`: the instruction-memory
address of the next non-label command following `j` (a command's address being
the number of non-label commands before it), or the total non-label count when
no non-label command follows. -/
def nextInstrAddr (cs : List String) (j : Nat) : Nat :=
  match findNonLabelIdx (cs.drop (j + 1)) with
  | some i => instrCount (cs.take (j + 1 + i))
  | none => instrCount cs

/-- The symbols pass 2 allocates fresh RAM addresses for, in order of first
appearance: address-command symbols that are not digit strings, not already in
the table, and not predefined. The table/counter evolution mirrors `pass2`. -/
def allocTrace : List String → SymbolTable → Nat → List String
  | [], _, _ => []
  | c :: cs, t, ram =>
    match Parser.command_type c with
    | CmdKind.A_COMMAND =>
      match resolveA t ram (Parser.symbol c) with
      | (_, t', ram') =>
        if isDigitStr (Parser.symbol c).data = false
            ∧ SymbolTable.contains t (Parser.symbol c) = false
            ∧ lookupTable predefined_variable_symbols (Parser.symbol c) = none then
          Parser.symbol c :: allocTrace cs t' ram'
        else allocTrace cs t' ram'
    | _ => allocTrace cs t ram

/-! ### Lemmas about the character-level operations -/

theorem hasChar_append (l₁ l₂ : List Char) (x : Char) :
    hasChar (l₁ ++ l₂) x = (hasChar l₁ x || hasChar l₂ x) := by
  induction l₁ with
  | nil => simp [hasChar]
  | cons c cs ih =>
    simp only [List.cons_append, hasChar]
    by_cases h : c = x <;> simp [h, ih]

theorem beforeChar_of_not (l : List Char) (x : Char) (h : hasChar l x = false) :
    beforeChar l x = l := by
  induction l with
  | nil => rfl
  | cons c cs ih =>
    simp only [hasChar] at h
    by_cases hc : c = x
    · simp [hc] at h
    · simp only [beforeChar, if_neg hc]
      simp only [if_neg hc] at h
      exact congrArg _ (ih h)

theorem beforeChar_append_cons (l₁ l₂ : List Char) (x : Char) (h : hasChar l₁ x = false) :
    beforeChar (l₁ ++ x :: l₂) x = l₁ := by
  induction l₁ with
  | nil => simp [beforeChar]
  | cons c cs ih =>
    simp only [hasChar] at h
    by_cases hc : c = x
    · simp [hc] at h
    · simp only [if_neg hc] at h
      simp only [List.cons_append, beforeChar, if_neg hc]
      exact congrArg _ (ih h)

theorem afterChar_append_cons (l₁ l₂ : List Char) (x : Char) (h : hasChar l₁ x = false) :
    afterChar (l₁ ++ x :: l₂) x = l₂ := by
  induction l₁ with
  | nil => simp [afterChar]
  | cons c cs ih =>
    simp only [hasChar] at h
    by_cases hc : c = x
    · simp [hc] at h
    · simp only [if_neg hc] at h
      simp only [List.cons_append, afterChar, if_neg hc]
      exact ih h

/-! ### Lemmas about the symbol table -/

theorem get_address_add_entry_of_some (t : SymbolTable) (s x : String) (a v : Nat)
    (h : SymbolTable.get_address t s = some v) :
    SymbolTable.get_address (SymbolTable.add_entry t x a) s = some v := by
  unfold SymbolTable.add_entry
  by_cases hc : SymbolTable.contains t x
  · simp [hc, h]
  · simp only [hc, Bool.false_eq_true, if_neg, ite_false]
    have hxs : x ≠ s := by
      intro he
      subst he
      simp [SymbolTable.contains, h] at hc
    simp [SymbolTable.get_address, lookupTable, hxs]
    exact h

theorem add_entry_of_contains (t : SymbolTable) (s : String) (a : Nat)
    (h : SymbolTable.contains t s = true) :
    SymbolTable.add_entry t s a = t := by
  simp [SymbolTable.add_entry, h]

theorem get_address_add_entry_ne (t : SymbolTable) (s x : String) (a : Nat) (hxs : x ≠ s) :
    SymbolTable.get_address (SymbolTable.add_entry t x a) s =
      SymbolTable.get_address t s := by
  unfold SymbolTable.add_entry
  by_cases hc : SymbolTable.contains t x
  · simp [hc]
  · simp [hc, SymbolTable.get_address, lookupTable, hxs]

theorem get_address_add_entry_self (t : SymbolTable) (s : String) (a : Nat)
    (h : SymbolTable.contains t s = false) :
    SymbolTable.get_address (SymbolTable.add_entry t s a) s = some a := by
  simp [SymbolTable.add_entry, h, SymbolTable.get_address, lookupTable]

theorem contains_add_entry_ne (t : SymbolTable) (s x : String) (a : Nat) (hxs : x ≠ s) :
    SymbolTable.contains (SymbolTable.add_entry t x a) s = SymbolTable.contains t s := by
  simp [SymbolTable.contains, get_address_add_entry_ne t s x a hxs]

theorem contains_add_entry_of_contains (t : SymbolTable) (s x : String) (a : Nat)
    (h : SymbolTable.contains t s = true) :
    SymbolTable.contains (SymbolTable.add_entry t x a) s = true := by
  rcases Option.isSome_iff_exists.mp h with ⟨v, hv⟩
  simp [SymbolTable.contains, get_address_add_entry_of_some t s x a v hv]

/-! ### Lemmas about binary digit strings -/

theorem binDigitsAux_congr : ∀ (f₁ f₂ n : Nat), n ≤ f₁ → n ≤ f₂ →
    binDigitsAux f₁ n = binDigitsAux f₂ n := by
  intro f₁
  induction f₁ with
  | zero =>
    intro f₂ n h₁ _
    have hn : n = 0 := Nat.le_zero.mp h₁
    subst hn
    cases f₂ <;> simp [binDigitsAux]
  | succ f ih =>
    intro f₂ n h₁ h₂
    by_cases hn : n = 0
    · subst hn
      cases f₂ <;> simp [binDigitsAux]
    · cases f₂ with
      | zero => omega
      | succ f₂' =>
        have hlt : n / 2 < n := Nat.div_lt_self (Nat.pos_of_ne_zero hn) (by omega)
        simp only [binDigitsAux, if_neg hn]
        rw [ih f₂' (n / 2) (by omega) (by omega)]

theorem binDigits_eq (n : Nat) (h : n ≠ 0) :
    binDigits n = binDigits (n / 2) ++ [bitChar (n % 2)] := by
  cases n with
  | zero => exact absurd rfl h
  | succ m =>
    have hlt : (m + 1) / 2 < m + 1 := Nat.div_lt_self (by omega) (by omega)
    show binDigitsAux (m + 1) (m + 1) = _
    simp only [binDigitsAux, if_neg h]
    rw [binDigitsAux_congr m ((m + 1) / 2) ((m + 1) / 2) (by omega) (le_refl _)]
    rfl

theorem bitsVal_append_single (l : List Char) (c : Char) :
    bitsVal (l ++ [c]) = 2 * bitsVal l + bitVal c := by
  simp [bitsVal, List.foldl_append]

theorem bitsVal_binDigitsAux : ∀ (f n : Nat), n ≤ f → bitsVal (binDigitsAux f n) = n := by
  intro f
  induction f with
  | zero =>
    intro n h
    have hn : n = 0 := Nat.le_zero.mp h
    subst hn
    rfl
  | succ f ih =>
    intro n h
    by_cases hn : n = 0
    · subst hn
      rfl
    · have hlt : n / 2 < n := Nat.div_lt_self (Nat.pos_of_ne_zero hn) (by omega)
      simp only [binDigitsAux, if_neg hn, bitsVal_append_single]
      rw [ih (n / 2) (by omega)]
      have hb : bitVal (bitChar (n % 2)) = n % 2 := by
        rcases Nat.mod_two_eq_zero_or_one n with h2 | h2 <;> simp [h2, bitChar, bitVal]
      rw [hb]
      omega

theorem bitsVal_binDigits (n : Nat) : bitsVal (binDigits n) = n :=
  bitsVal_binDigitsAux n n (le_refl n)

theorem length_binDigitsAux_le : ∀ (f n k : Nat), n ≤ f → n < 2 ^ k →
    (binDigitsAux f n).length ≤ k := by
  intro f
  induction f with
  | zero =>
    intro n k h _
    have hn : n = 0 := Nat.le_zero.mp h
    subst hn
    simp [binDigitsAux]
  | succ f ih =>
    intro n k h hk
    by_cases hn : n = 0
    · subst hn
      simp [binDigitsAux]
    · have hlt : n / 2 < n := Nat.div_lt_self (Nat.pos_of_ne_zero hn) (by omega)
      simp only [binDigitsAux, if_neg hn, List.length_append, List.length_singleton]
      cases k with
      | zero =>
        simp at hk
        omega
      | succ k' =>
        have hdiv : n / 2 < 2 ^ k' := by
          rw [Nat.div_lt_iff_lt_mul (by omega : 0 < 2)]
          calc n < 2 ^ (k' + 1) := hk
            _ = 2 ^ k' * 2 := by rw [pow_succ]
        have := ih (n / 2) k' (by omega) hdiv
        omega

theorem length_binDigits_le (n k : Nat) (h : n < 2 ^ k) : (binDigits n).length ≤ k :=
  length_binDigitsAux_le n n k (le_refl n) h

theorem lt_length_binDigitsAux : ∀ (f n k : Nat), n ≤ f → 2 ^ k ≤ n →
    k < (binDigitsAux f n).length := by
  intro f
  induction f with
  | zero =>
    intro n k h hk
    have hn : n = 0 := Nat.le_zero.mp h
    subst hn
    have := Nat.pos_pow_of_pos k (by omega : 0 < 2)
    omega
  | succ f ih =>
    intro n k h hk
    have hn : n ≠ 0 := by
      have := Nat.pos_pow_of_pos k (by omega : 0 < 2)
      omega
    have hlt : n / 2 < n := Nat.div_lt_self (Nat.pos_of_ne_zero hn) (by omega)
    simp only [binDigitsAux, if_neg hn, List.length_append, List.length_singleton]
    cases k with
    | zero => omega
    | succ k' =>
      have hdiv : 2 ^ k' ≤ n / 2 := by
        rw [Nat.le_div_iff_mul_le (by omega : 0 < 2)]
        calc 2 ^ k' * 2 = 2 ^ (k' + 1) := by rw [pow_succ]
          _ ≤ n := hk
      have := ih (n / 2) k' (by omega) hdiv
      omega

theorem lt_length_binDigits (n k : Nat) (h : 2 ^ k ≤ n) : k < (binDigits n).length :=
  lt_length_binDigitsAux n n k (le_refl n) h

theorem bitsVal_cons_zero (l : List Char) : bitsVal ('0' :: l) = bitsVal l := by
  simp [bitsVal, List.foldl_cons, bitVal]

theorem bitsVal_replicate_zero_append (m : Nat) (l : List Char) :
    bitsVal (List.replicate m '0' ++ l) = bitsVal l := by
  induction m with
  | zero => simp
  | succ k ih =>
    rw [List.replicate_succ, List.cons_append, bitsVal_cons_zero]
    exact ih

theorem replicate_cons_swap (k : Nat) (c : Char) (l : List Char) :
    List.replicate k c ++ c :: l = c :: (List.replicate k c ++ l) := by
  induction k with
  | zero => simp
  | succ m ih => simp only [List.replicate_succ, List.cons_append, ih]

theorem pyBin_length_le (n : Nat) (h : n ≤ 32767) : (pyBin n).length ≤ 15 := by
  by_cases hn : n = 0
  · simp [pyBin, hn]
  · simp only [pyBin, if_neg hn]
    exact length_binDigits_le n 15 (by omega)

theorem bitsVal_pyBin (n : Nat) : bitsVal (pyBin n) = n := by
  by_cases hn : n = 0
  · subst hn
    decide
  · simp only [pyBin, if_neg hn]
    exact bitsVal_binDigits n

theorem encodeAddr_eq_specWordA (n : Nat) (h : n ≤ 32767) : encodeAddr n = specWordA n := by
  have hlen : (pyBin n).length ≤ 15 := pyBin_length_le n h
  unfold encodeAddr specWordA rjust
  by_cases h16 : 16 ≤ ('0' :: pyBin n).length
  · have : (pyBin n).length = 15 := by
      simp only [List.length_cons] at h16
      omega
    simp only [if_pos h16, this]
    simp
  · have h16' : ¬ 16 ≤ (pyBin n).length + 1 := by
      simp only [List.length_cons] at h16
      exact h16
    simp only [List.length_cons, if_neg h16']
    have harith : 16 - ((pyBin n).length + 1) = 15 - (pyBin n).length := by omega
    rw [harith, replicate_cons_swap]

theorem specWordA_length (n : Nat) (h : n ≤ 32767) : (specWordA n).length = 16 := by
  have hlen : (pyBin n).length ≤ 15 := pyBin_length_le n h
  show ('0' :: (List.replicate (15 - (pyBin n).length) '0' ++ pyBin n)).length = 16
  simp only [List.length_cons, List.length_append, List.length_replicate]
  omega

theorem bitsVal_specWordA (n : Nat) : bitsVal (specWordA n).data = n := by
  show bitsVal ('0' :: (List.replicate (15 - (pyBin n).length) '0' ++ pyBin n)) = n
  rw [bitsVal_cons_zero, bitsVal_replicate_zero_append, bitsVal_pyBin]

theorem encodeAddr_wide (n : Nat) (h : 32768 ≤ n) :
    (encodeAddr n).data = '0' :: binDigits n ∧ 16 ≤ (binDigits n).length := by
  have hn : n ≠ 0 := by omega
  have hlen : 15 < (binDigits n).length := lt_length_binDigits n 15 (by omega)
  constructor
  · show rjust 16 '0' ('0' :: pyBin n) = _
    simp only [pyBin, if_neg hn]
    unfold rjust
    rw [if_pos]
    simp only [List.length_cons]
    omega
  · omega

/-! ### Lemmas about pass 1 -/

theorem pass1_preserves : ∀ (cs : List String) (rom : Nat) (t : SymbolTable)
    (s : String) (v : Nat), SymbolTable.get_address t s = some v →
    SymbolTable.get_address (pass1 cs rom t) s = some v := by
  intro cs
  induction cs with
  | nil => intro rom t s v h; exact h
  | cons c cs ih =>
    intro rom t s v h
    by_cases hc : Parser.command_type c = CmdKind.L_COMMAND
    · simp only [pass1, if_pos hc]
      exact ih rom _ s v (get_address_add_entry_of_some t s (Parser.symbol c) rom v h)
    · simp only [pass1, if_neg hc]
      exact ih (rom + 1) t s v h

theorem instrCount_append (l₁ l₂ : List String) :
    instrCount (l₁ ++ l₂) = instrCount l₁ + instrCount l₂ := by
  induction l₁ with
  | nil => simp [instrCount]
  | cons c cs ih =>
    show instrCount (c :: (cs ++ l₂)) = instrCount (c :: cs) + instrCount l₂
    simp only [instrCount]
    rw [ih]
    omega

theorem pass1_lookup : ∀ (cs : List String) (j : Nat) (rom : Nat) (t : SymbolTable)
    (h : j < cs.length),
    Parser.command_type (cs.get ⟨j, h⟩) = CmdKind.L_COMMAND →
    (∀ c' ∈ cs.take j, Parser.command_type c' = CmdKind.L_COMMAND →
      Parser.symbol c' ≠ Parser.symbol (cs.get ⟨j, h⟩)) →
    SymbolTable.contains t (Parser.symbol (cs.get ⟨j, h⟩)) = false →
    SymbolTable.get_address (pass1 cs rom t) (Parser.symbol (cs.get ⟨j, h⟩)) =
      some (rom + instrCount (cs.take j)) := by
  intro cs
  induction cs with
  | nil =>
    intro j rom t h
    simp at h
  | cons c cs ih =>
    intro j rom t h hl hfirst hnot
    cases j with
    | zero =>
      simp only [List.get] at hl hnot ⊢
      simp only [pass1, if_pos hl]
      simp only [List.take_zero, instrCount, Nat.add_zero]
      exact pass1_preserves cs rom _ _ rom
        (get_address_add_entry_self t (Parser.symbol c) rom hnot)
    | succ j' =>
      have hj' : j' < cs.length := by
        simp only [List.length_cons] at h
        omega
      simp only [List.get_cons_succ] at hl hnot hfirst ⊢
      simp only [List.take_succ_cons] at hfirst ⊢
      by_cases hc : Parser.command_type c = CmdKind.L_COMMAND
      · have hne : Parser.symbol c ≠ Parser.symbol (cs.get ⟨j', hj'⟩) :=
          hfirst c (List.mem_cons_self c _) hc
        simp only [pass1, if_pos hc]
        have hnot' : SymbolTable.contains
            (SymbolTable.add_entry t (Parser.symbol c) rom)
            (Parser.symbol (cs.get ⟨j', hj'⟩)) = false := by
          rw [contains_add_entry_ne t _ (Parser.symbol c) rom hne]
          exact hnot
        have := ih j' rom _ hj' hl
          (fun c' hc' hcl => hfirst c' (List.mem_cons_of_mem c hc') hcl) hnot'
        rw [this]
        simp [instrCount, hc]
      · simp only [pass1, if_neg hc]
        have := ih j' (rom + 1) t hj' hl
          (fun c' hc' hcl => hfirst c' (List.mem_cons_of_mem c hc') hcl) hnot
        rw [this]
        have harith : rom + 1 + instrCount (cs.take j') =
            rom + ((if Parser.command_type c = CmdKind.L_COMMAND then 0 else 1) +
              instrCount (cs.take j')) := by
          simp only [if_neg hc]
          omega
        rw [harith]
        rfl

theorem findNonLabelIdx_take (l : List String) : ∀ (i : Nat),
    findNonLabelIdx l = some i → instrCount (l.take i) = 0 := by
  induction l with
  | nil => intro i h; simp [findNonLabelIdx] at h
  | cons c cs ih =>
    intro i h
    by_cases hc : Parser.command_type c = CmdKind.L_COMMAND
    · simp only [findNonLabelIdx, if_pos hc, Option.map_eq_some'] at h
      obtain ⟨i', hi', rfl⟩ := h
      simp only [List.take_succ_cons, instrCount, if_pos hc, ih i' hi']
    · simp only [findNonLabelIdx, if_neg hc, Option.some.injEq] at h
      subst h
      simp [instrCount]

theorem findNonLabelIdx_none (l : List String) (h : findNonLabelIdx l = none) :
    instrCount l = 0 := by
  induction l with
  | nil => rfl
  | cons c cs ih =>
    by_cases hc : Parser.command_type c = CmdKind.L_COMMAND
    · simp only [findNonLabelIdx, if_pos hc, Option.map_eq_none'] at h
      simp [instrCount, hc, ih h]
    · simp [findNonLabelIdx, if_neg hc] at h

theorem nextInstrAddr_label (cs : List String) (j : Nat) (h : j < cs.length)
    (hl : Parser.command_type (cs.get ⟨j, h⟩) = CmdKind.L_COMMAND) :
    nextInstrAddr cs j = instrCount (cs.take j) := by
  have htake : instrCount (cs.take (j + 1)) = instrCount (cs.take j) := by
    rw [List.take_succ, instrCount_append]
    have hget : cs[j]? = some (cs.get ⟨j, h⟩) := by
      rw [List.getElem?_eq_getElem h, List.get_eq_getElem]
    rw [hget]
    simp only [Option.toList_some, instrCount, List.get_eq_getElem] at hl ⊢
    simp [hl]
  cases hfind : findNonLabelIdx (cs.drop (j + 1)) with
  | none =>
    have heq : nextInstrAddr cs j = instrCount cs := by
      unfold nextInstrAddr
      rw [hfind]
    rw [heq]
    conv_lhs => rw [← List.take_append_drop (j + 1) cs]
    rw [instrCount_append, findNonLabelIdx_none _ hfind, Nat.add_zero, htake]
  | some i =>
    have heq : nextInstrAddr cs j = instrCount (cs.take (j + 1 + i)) := by
      unfold nextInstrAddr
      rw [hfind]
    rw [heq, List.take_add, instrCount_append, findNonLabelIdx_take _ i hfind,
      Nat.add_zero, htake]

/-! ### Lemmas about pass 2 -/

theorem resolveA_digit (t : SymbolTable) (ram : Nat) (s : String)
    (h : isDigitStr s.data = true) :
    resolveA t ram s = (strToNat s.data, t, ram) := by
  simp [resolveA, h]

theorem resolveA_contains (t : SymbolTable) (ram : Nat) (s : String)
    (hd : isDigitStr s.data = false) (hc : SymbolTable.contains t s = true) :
    resolveA t ram s = ((SymbolTable.get_address t s).getD 0, t, ram) := by
  simp [resolveA, hd, hc]

theorem resolveA_predef (t : SymbolTable) (ram : Nat) (s : String) (a : Nat)
    (hd : isDigitStr s.data = false) (hc : SymbolTable.contains t s = false)
    (hp : lookupTable predefined_variable_symbols s = some a) :
    resolveA t ram s = (a, SymbolTable.add_entry t s a, ram) := by
  simp only [resolveA, hd, Bool.false_eq_true, if_neg, ite_false, hc, hp]
  rw [get_address_add_entry_self t s a hc]
  rfl

theorem resolveA_fresh (t : SymbolTable) (ram : Nat) (s : String)
    (hd : isDigitStr s.data = false) (hc : SymbolTable.contains t s = false)
    (hp : lookupTable predefined_variable_symbols s = none) :
    resolveA t ram s = (ram, SymbolTable.add_entry t s ram, ram + 1) := by
  simp only [resolveA, hd, Bool.false_eq_true, if_neg, ite_false, hc, hp]
  rw [get_address_add_entry_self t s ram hc]
  rfl

theorem consWord_ok (w : String) (r : Except AsmErr (List String × SymbolTable × Nat))
    (ws : List String) (tf : SymbolTable) (rf : Nat)
    (h : consWord w r = Except.ok (ws, tf, rf)) :
    ∃ ws', r = Except.ok (ws', tf, rf) ∧ ws = w :: ws' := by
  cases r with
  | error e => simp [consWord] at h
  | ok p =>
    obtain ⟨ws', tf', rf'⟩ := p
    simp only [consWord, Except.ok.injEq, Prod.mk.injEq] at h
    obtain ⟨h1, h2, h3⟩ := h
    exact ⟨ws', by rw [h2, h3], h1.symm⟩

theorem consWord_error (w : String) (r : Except AsmErr (List String × SymbolTable × Nat))
    (e : AsmErr) (h : r = Except.error e) : consWord w r = Except.error e := by
  rw [h]
  rfl

theorem pass2_label_cons (c : String) (cs : List String) (t : SymbolTable) (ram : Nat)
    (h : Parser.command_type c = CmdKind.L_COMMAND) :
    pass2 (c :: cs) t ram = pass2 cs t ram := by
  simp [pass2, h]

theorem pass2_A_cons (c : String) (cs : List String) (t : SymbolTable) (ram : Nat)
    (h : Parser.command_type c = CmdKind.A_COMMAND) :
    pass2 (c :: cs) t ram =
      consWord (encodeAddr (resolveA t ram (Parser.symbol c)).1)
        (pass2 cs (resolveA t ram (Parser.symbol c)).2.1
          (resolveA t ram (Parser.symbol c)).2.2) := by
  simp [pass2, h]

theorem pass2_C_cons (c : String) (cs : List String) (t : SymbolTable) (ram : Nat)
    (h : Parser.command_type c = CmdKind.C_COMMAND) :
    pass2 (c :: cs) t ram =
      match encodeC c with
      | Except.error e => Except.error e
      | Except.ok w => consWord w (pass2 cs t ram) := by
  simp [pass2, h]

theorem resolveA_table_shape (t : SymbolTable) (ram : Nat) (s : String) :
    (resolveA t ram s).2.1 = t ∨
      ∃ x a, (resolveA t ram s).2.1 = SymbolTable.add_entry t x a := by
  unfold resolveA
  by_cases hd : isDigitStr s.data
  · simp [hd]
  · simp only [hd, Bool.false_eq_true, if_neg, ite_false]
    by_cases hc : SymbolTable.contains t s
    · simp [hc]
    · simp only [hc, Bool.false_eq_true, if_neg, ite_false]
      cases hp : lookupTable predefined_variable_symbols s with
      | none => exact Or.inr ⟨s, ram, rfl⟩
      | some a => exact Or.inr ⟨s, a, rfl⟩

theorem pass2_preserves : ∀ (cs : List String) (t : SymbolTable) (ram : Nat)
    (ws : List String) (tf : SymbolTable) (rf : Nat) (s : String) (v : Nat),
    pass2 cs t ram = Except.ok (ws, tf, rf) →
    SymbolTable.get_address t s = some v →
    SymbolTable.get_address tf s = some v := by
  intro cs
  induction cs with
  | nil =>
    intro t ram ws tf rf s v h hv
    simp only [pass2, Except.ok.injEq, Prod.mk.injEq] at h
    obtain ⟨-, h2, -⟩ := h
    rw [← h2]
    exact hv
  | cons c cs ih =>
    intro t ram ws tf rf s v h hv
    rcases hk : Parser.command_type c with hA | hC | hL
    · rw [pass2_A_cons c cs t ram hk] at h
      obtain ⟨ws', h1, -⟩ := consWord_ok _ _ _ _ _ h
      have hv' : SymbolTable.get_address (resolveA t ram (Parser.symbol c)).2.1 s =
          some v := by
        rcases resolveA_table_shape t ram (Parser.symbol c) with hsh | ⟨x, a, hsh⟩
        · rw [hsh]; exact hv
        · rw [hsh]; exact get_address_add_entry_of_some t s x a v hv
      exact ih _ _ ws' tf rf s v h1 hv'
    · rw [pass2_C_cons c cs t ram hk] at h
      cases he : encodeC c with
      | error e => rw [he] at h; simp at h
      | ok w =>
        rw [he] at h
        obtain ⟨ws', h1, -⟩ := consWord_ok _ _ _ _ _ h
        exact ih t ram ws' tf rf s v h1 hv
    · rw [pass2_label_cons c cs t ram hk] at h
      exact ih t ram ws tf rf s v h hv

/-! ### Lemmas about variable allocation -/

theorem allocTrace_L_cons (c : String) (cs : List String) (t : SymbolTable) (ram : Nat)
    (h : Parser.command_type c = CmdKind.L_COMMAND) :
    allocTrace (c :: cs) t ram = allocTrace cs t ram := by
  simp [allocTrace, h]

theorem allocTrace_C_cons (c : String) (cs : List String) (t : SymbolTable) (ram : Nat)
    (h : Parser.command_type c = CmdKind.C_COMMAND) :
    allocTrace (c :: cs) t ram = allocTrace cs t ram := by
  simp [allocTrace, h]

theorem allocTrace_A_digit (c : String) (cs : List String) (t : SymbolTable) (ram : Nat)
    (h : Parser.command_type c = CmdKind.A_COMMAND)
    (hd : isDigitStr (Parser.symbol c).data = true) :
    allocTrace (c :: cs) t ram = allocTrace cs t ram := by
  simp [allocTrace, h, resolveA_digit t ram _ hd, hd]

theorem allocTrace_A_contains (c : String) (cs : List String) (t : SymbolTable) (ram : Nat)
    (h : Parser.command_type c = CmdKind.A_COMMAND)
    (hd : isDigitStr (Parser.symbol c).data = false)
    (hc : SymbolTable.contains t (Parser.symbol c) = true) :
    allocTrace (c :: cs) t ram = allocTrace cs t ram := by
  simp [allocTrace, h, resolveA_contains t ram _ hd hc, hc]

theorem allocTrace_A_predef (c : String) (cs : List String) (t : SymbolTable) (ram : Nat)
    (a : Nat) (h : Parser.command_type c = CmdKind.A_COMMAND)
    (hd : isDigitStr (Parser.symbol c).data = false)
    (hc : SymbolTable.contains t (Parser.symbol c) = false)
    (hp : lookupTable predefined_variable_symbols (Parser.symbol c) = some a) :
    allocTrace (c :: cs) t ram =
      allocTrace cs (SymbolTable.add_entry t (Parser.symbol c) a) ram := by
  simp [allocTrace, h, resolveA_predef t ram _ a hd hc hp, hd, hc, hp]

theorem allocTrace_A_fresh (c : String) (cs : List String) (t : SymbolTable) (ram : Nat)
    (h : Parser.command_type c = CmdKind.A_COMMAND)
    (hd : isDigitStr (Parser.symbol c).data = false)
    (hc : SymbolTable.contains t (Parser.symbol c) = false)
    (hp : lookupTable predefined_variable_symbols (Parser.symbol c) = none) :
    allocTrace (c :: cs) t ram =
      Parser.symbol c ::
        allocTrace cs (SymbolTable.add_entry t (Parser.symbol c) ram) (ram + 1) := by
  simp [allocTrace, h, resolveA_fresh t ram _ hd hc hp, hd, hc, hp]

theorem allocTrace_mem : ∀ (cs : List String) (t : SymbolTable) (ram : Nat)
    (s : String), s ∈ allocTrace cs t ram →
    SymbolTable.contains t s = false ∧ isDigitStr s.data = false ∧
      lookupTable predefined_variable_symbols s = none := by
  intro cs
  induction cs with
  | nil => intro t ram s h; simp [allocTrace] at h
  | cons c cs ih =>
    intro t ram s hmem
    cases hk : Parser.command_type c with
    | L_COMMAND =>
      rw [allocTrace_L_cons c cs t ram hk] at hmem
      exact ih t ram s hmem
    | C_COMMAND =>
      rw [allocTrace_C_cons c cs t ram hk] at hmem
      exact ih t ram s hmem
    | A_COMMAND =>
      by_cases hd : isDigitStr (Parser.symbol c).data
      · rw [allocTrace_A_digit c cs t ram hk hd] at hmem
        exact ih t ram s hmem
      · simp only [Bool.not_eq_true] at hd
        by_cases hc : SymbolTable.contains t (Parser.symbol c)
        · rw [allocTrace_A_contains c cs t ram hk hd hc] at hmem
          exact ih t ram s hmem
        · simp only [Bool.not_eq_true] at hc
          cases hp : lookupTable predefined_variable_symbols (Parser.symbol c) with
          | some a =>
            rw [allocTrace_A_predef c cs t ram a hk hd hc hp] at hmem
            have := ih _ ram s hmem
            refine ⟨?_, this.2⟩
            by_cases hss : Parser.symbol c = s
            · subst hss
              exfalso
              have hcc : SymbolTable.contains
                  (SymbolTable.add_entry t (Parser.symbol c) a) (Parser.symbol c) = true := by
                simp [SymbolTable.contains,
                  get_address_add_entry_self t (Parser.symbol c) a hc]
              rw [this.1] at hcc
              exact Bool.false_ne_true hcc
            · rw [← contains_add_entry_ne t s (Parser.symbol c) a hss]
              exact this.1
          | none =>
            rw [allocTrace_A_fresh c cs t ram hk hd hc hp] at hmem
            rcases List.mem_cons.mp hmem with hss | hmem'
            · subst hss
              exact ⟨hc, hd, hp⟩
            · have := ih _ (ram + 1) s hmem'
              refine ⟨?_, this.2⟩
              by_cases hss : Parser.symbol c = s
              · subst hss
                exfalso
                have hcc : SymbolTable.contains
                    (SymbolTable.add_entry t (Parser.symbol c) ram)
                    (Parser.symbol c) = true := by
                  simp [SymbolTable.contains,
                    get_address_add_entry_self t (Parser.symbol c) ram hc]
                rw [this.1] at hcc
                exact Bool.false_ne_true hcc
              · rw [← contains_add_entry_ne t s (Parser.symbol c) ram hss]
                exact this.1

theorem allocTrace_nodup : ∀ (cs : List String) (t : SymbolTable) (ram : Nat),
    (allocTrace cs t ram).Nodup := by
  intro cs
  induction cs with
  | nil => intro t ram; simp [allocTrace]
  | cons c cs ih =>
    intro t ram
    cases hk : Parser.command_type c with
    | L_COMMAND => rw [allocTrace_L_cons c cs t ram hk]; exact ih t ram
    | C_COMMAND => rw [allocTrace_C_cons c cs t ram hk]; exact ih t ram
    | A_COMMAND =>
      by_cases hd : isDigitStr (Parser.symbol c).data
      · rw [allocTrace_A_digit c cs t ram hk hd]; exact ih t ram
      · simp only [Bool.not_eq_true] at hd
        by_cases hc : SymbolTable.contains t (Parser.symbol c)
        · rw [allocTrace_A_contains c cs t ram hk hd hc]; exact ih t ram
        · simp only [Bool.not_eq_true] at hc
          cases hp : lookupTable predefined_variable_symbols (Parser.symbol c) with
          | some a => rw [allocTrace_A_predef c cs t ram a hk hd hc hp]; exact ih _ ram
          | none =>
            rw [allocTrace_A_fresh c cs t ram hk hd hc hp]
            refine List.nodup_cons.mpr ⟨?_, ih _ (ram + 1)⟩
            intro hmem
            have hmm := allocTrace_mem cs _ (ram + 1) (Parser.symbol c) hmem
            have hcc : SymbolTable.contains
                (SymbolTable.add_entry t (Parser.symbol c) ram)
                (Parser.symbol c) = true := by
              simp [SymbolTable.contains,
                get_address_add_entry_self t (Parser.symbol c) ram hc]
            rw [hmm.1] at hcc
            exact Bool.false_ne_true hcc

theorem pass2_alloc : ∀ (cs : List String) (t : SymbolTable) (ram : Nat)
    (ws : List String) (tf : SymbolTable) (rf : Nat),
    pass2 cs t ram = Except.ok (ws, tf, rf) →
    rf = ram + (allocTrace cs t ram).length ∧
    ∀ i (hi : i < (allocTrace cs t ram).length),
      SymbolTable.get_address tf ((allocTrace cs t ram).get ⟨i, hi⟩) =
        some (ram + i) := by
  intro cs
  induction cs with
  | nil =>
    intro t ram ws tf rf h
    simp only [pass2, Except.ok.injEq, Prod.mk.injEq] at h
    obtain ⟨-, -, h3⟩ := h
    constructor
    · rw [← h3]; simp [allocTrace]
    · intro i hi
      simp [allocTrace] at hi
  | cons c cs ih =>
    intro t ram ws tf rf h
    cases hk : Parser.command_type c with
    | L_COMMAND =>
      rw [pass2_label_cons c cs t ram hk] at h
      rw [allocTrace_L_cons c cs t ram hk]
      exact ih t ram ws tf rf h
    | C_COMMAND =>
      rw [pass2_C_cons c cs t ram hk] at h
      rw [allocTrace_C_cons c cs t ram hk]
      cases he : encodeC c with
      | error e => rw [he] at h; simp at h
      | ok w =>
        rw [he] at h
        obtain ⟨ws', h1, -⟩ := consWord_ok _ _ _ _ _ h
        exact ih t ram ws' tf rf h1
    | A_COMMAND =>
      rw [pass2_A_cons c cs t ram hk] at h
      obtain ⟨ws', h1, -⟩ := consWord_ok _ _ _ _ _ h
      by_cases hd : isDigitStr (Parser.symbol c).data
      · rw [allocTrace_A_digit c cs t ram hk hd]
        rw [resolveA_digit t ram _ hd] at h1
        exact ih t ram ws' tf rf h1
      · simp only [Bool.not_eq_true] at hd
        by_cases hc : SymbolTable.contains t (Parser.symbol c)
        · rw [allocTrace_A_contains c cs t ram hk hd hc]
          rw [resolveA_contains t ram _ hd hc] at h1
          exact ih t ram ws' tf rf h1
        · simp only [Bool.not_eq_true] at hc
          cases hp : lookupTable predefined_variable_symbols (Parser.symbol c) with
          | some a =>
            rw [allocTrace_A_predef c cs t ram a hk hd hc hp]
            rw [resolveA_predef t ram _ a hd hc hp] at h1
            exact ih _ ram ws' tf rf h1
          | none =>
            rw [allocTrace_A_fresh c cs t ram hk hd hc hp]
            rw [resolveA_fresh t ram _ hd hc hp] at h1
            obtain ⟨ihrf, ihget⟩ :=
              ih (SymbolTable.add_entry t (Parser.symbol c) ram) (ram + 1) ws' tf rf h1
            constructor
            · rw [ihrf]
              simp only [List.length_cons]
              omega
            · intro i hi
              cases i with
              | zero =>
                simp only [List.get, Nat.add_zero]
                have hself : SymbolTable.get_address
                    (SymbolTable.add_entry t (Parser.symbol c) ram)
                    (Parser.symbol c) = some ram :=
                  get_address_add_entry_self t (Parser.symbol c) ram hc
                exact pass2_preserves cs _ (ram + 1) ws' tf rf _ ram h1 hself
              | succ i' =>
                simp only [List.length_cons] at hi
                have hi' : i' < (allocTrace cs
                    (SymbolTable.add_entry t (Parser.symbol c) ram) (ram + 1)).length := by
                  omega
                have := ihget i' hi'
                simp only [List.get_cons_succ]
                rw [show ram + (i' + 1) = ram + 1 + i' by omega]
                exact this

/-! ### Helpers for the claim theorems -/

theorem asmErr_shape (e : AsmErr) : ∃ m, e = AsmErr.unknownMnemonic m := by
  cases e with
  | unknownMnemonic m => exact ⟨m, rfl⟩

theorem lookupTable_mem {α : Type} : ∀ (l : List (String × α)) (s : String) (v : α),
    lookupTable l s = some v → (s, v) ∈ l := by
  intro l
  induction l with
  | nil => intro s v h; simp [lookupTable] at h
  | cons p l ih =>
    intro s v h
    obtain ⟨k, v'⟩ := p
    by_cases hk : k = s
    · subst hk
      simp [lookupTable] at h
      subst h
      exact List.mem_cons_self _ _
    · simp only [lookupTable, if_neg hk] at h
      exact List.mem_cons_of_mem _ (ih s v h)

theorem predef_not_digit (s : String) (a : Nat)
    (h : lookupTable predefined_variable_symbols s = some a) :
    isDigitStr s.data = false := by
  have hmem := lookupTable_mem predefined_variable_symbols s a h
  fin_cases hmem <;> decide

theorem command_type_at (s : String) :
    Parser.command_type ⟨'@' :: s.data⟩ = CmdKind.A_COMMAND := rfl

theorem symbol_at (s : String) : Parser.symbol ⟨'@' :: s.data⟩ = s := rfl

theorem pass2_at_cons (s : String) (cs : List String) (t : SymbolTable) (ram : Nat) :
    pass2 (⟨'@' :: s.data⟩ :: cs) t ram =
      consWord (encodeAddr (resolveA t ram s).1)
        (pass2 cs (resolveA t ram s).2.1 (resolveA t ram s).2.2) := by
  rw [pass2_A_cons _ cs t ram (command_type_at s), symbol_at]

theorem pass2_error_of_bad_comp : ∀ (cs : List String) (t : SymbolTable) (ram : Nat)
    (c : String), c ∈ cs → Parser.command_type c = CmdKind.C_COMMAND →
    lookupTable comp_table (Parser.comp c) = none →
    ∃ m, pass2 cs t ram = Except.error (AsmErr.unknownMnemonic m) := by
  intro cs
  induction cs with
  | nil => intro t ram c hmem; simp at hmem
  | cons c0 cs ih =>
    intro t ram c hmem hC hbad
    rcases List.mem_cons.mp hmem with rfl | hmem'
    · rw [pass2_C_cons c cs t ram hC]
      cases he : encodeC c with
      | error e =>
        obtain ⟨m, rfl⟩ := asmErr_shape e
        exact ⟨m, rfl⟩
      | ok w =>
        exfalso
        simp [encodeC, hbad] at he
    · cases hk : Parser.command_type c0 with
      | L_COMMAND =>
        rw [pass2_label_cons c0 cs t ram hk]
        exact ih t ram c hmem' hC hbad
      | A_COMMAND =>
        obtain ⟨m, hm⟩ := ih (resolveA t ram (Parser.symbol c0)).2.1
          (resolveA t ram (Parser.symbol c0)).2.2 c hmem' hC hbad
        refine ⟨m, ?_⟩
        rw [pass2_A_cons c0 cs t ram hk]
        rw [consWord_error _ _ _ hm]
      | C_COMMAND =>
        rw [pass2_C_cons c0 cs t ram hk]
        cases he : encodeC c0 with
        | error e =>
          obtain ⟨m, rfl⟩ := asmErr_shape e
          exact ⟨m, rfl⟩
        | ok w =>
          obtain ⟨m, hm⟩ := ih t ram c hmem' hC hbad
          refine ⟨m, ?_⟩
          show consWord w (pass2 cs t ram) = _
          rw [consWord_error _ _ _ hm]

/-! ### Claim theorems -/

/-- C1: translating the command stream `["@2", "D=A", "@3", "D=D+A", "@0", "M=D"]`
emits exactly the word sequence `0000000000000010`, `1110110000010000`,
`0000000000000011`, `1110000010010000`, `0000000000000000`, `1110001100001000`,
in that order (six words, one per non-label command). -/
theorem c1_scenario_words :
    assemble [("@2"), ("D=A"), ("@3"), ("D=D+A"), ("@0"), ("M=D")] =
      Except.ok [("0000000000000010"), ("1110110000010000"), ("0000000000000011"),
        ("1110000010010000"), ("0000000000000000"), ("1110001100001000")] := by
  rfl

/-- C2 counterexample: the symbol table produced by `SymbolTable.__init__`, with
which translation starts, resolves the predefined name `SP` to nothing at all
(the claim asserts it already holds every predefined entry, so that `SP`
resolves to `0` from the start); the predefined names live in a separate
module-level dictionary, not in the table. -/
theorem c2_counterexample :
    SymbolTable.get_address SymbolTable.new ("SP") = none ∧
    lookupTable predefined_variable_symbols ("SP") = some 0 := by
  decide

/-- C2 amended: the symbol table is created empty; the predefined entries (the
register names at addresses 0–15 and `SCREEN`/`KBD` at 16384/24576) live in the
separate fixed dictionary `predefined_variable_symbols`, where each listed name
resolves to its fixed address, and pass 2 consults that dictionary exactly when
an address-command symbol is absent from the table, resolving the symbol to its
fixed predefined address (and recording it in the table, RAM counter untouched). -/
theorem c2_amended_predefined :
    SymbolTable.new = ([] : SymbolTable) ∧
    (∀ p ∈ predefined_variable_symbols,
      lookupTable predefined_variable_symbols p.1 = some p.2) ∧
    (∀ (t : SymbolTable) (ram : Nat) (s : String) (a : Nat),
      SymbolTable.contains t s = false →
      lookupTable predefined_variable_symbols s = some a →
      resolveA t ram s = (a, SymbolTable.add_entry t s a, ram)) := by
  refine ⟨rfl, by decide, ?_⟩
  intro t ram s a hc hp
  exact resolveA_predef t ram s a (predef_not_digit s a hp) hc hp

/-- C2 witness: a fresh table does not contain `SCREEN`, so pass-2 resolution
yields its fixed predefined address 16384 without touching the RAM counter. -/
theorem c2_amended_predefined_witness :
    resolveA SymbolTable.new 16 ("SCREEN") =
      (16384, SymbolTable.add_entry SymbolTable.new ("SCREEN") 16384, 16) :=
  c2_amended_predefined.2.2 SymbolTable.new 16 ("SCREEN") 16384 (by decide) (by decide)

/-- C3: an address command whose symbol is a literal decimal integer `n ≤ 32767`
emits the 16-character word consisting of a leading 0 followed by the 15-bit
binary representation of `n` zero-padded on the left; the word has length 16
and its binary value is `n`, and the table and RAM counter are untouched. -/
theorem c3_literal_address (s : String) (cs : List String) (t : SymbolTable) (ram : Nat)
    (hd : isDigitStr s.data = true) (hb : strToNat s.data ≤ 32767) :
    pass2 (⟨'@' :: s.data⟩ :: cs) t ram =
      consWord (specWordA (strToNat s.data)) (pass2 cs t ram) ∧
    (specWordA (strToNat s.data)).length = 16 ∧
    bitsVal (specWordA (strToNat s.data)).data = strToNat s.data := by
  refine ⟨?_, specWordA_length _ hb, bitsVal_specWordA _⟩
  rw [pass2_at_cons]
  simp only [resolveA_digit t ram s hd]
  rw [encodeAddr_eq_specWordA _ hb]

/-- C3 witness: the literal address command `@2` emits the expected word. -/
theorem c3_literal_address_witness :
    pass2 [("@2")] SymbolTable.new 16 =
      consWord (specWordA 2) (pass2 [] SymbolTable.new 16) ∧
    (specWordA 2).length = 16 ∧
    bitsVal (specWordA 2).data = 2 :=
  c3_literal_address ("2") [] SymbolTable.new 16 (by decide) (by decide)

/-- C4 counterexample: on `["(X)", "@0", "(X)", "@1"]` the command at index 2 is
a label command named `X` whose next non-label command has instruction-memory
address 1, yet after pass 1 the table maps `X` to 0 (first writer wins), so the
claim fails for that label command. -/
theorem c4_counterexample :
    Parser.command_type ((["(X)", "@0", "(X)", "@1"] : List String).get
      ⟨2, by decide⟩) = CmdKind.L_COMMAND ∧
    Parser.symbol ((["(X)", "@0", "(X)", "@1"] : List String).get ⟨2, by decide⟩) =
      ("X") ∧
    nextInstrAddr ["(X)", "@0", "(X)", "@1"] 2 = 1 ∧
    SymbolTable.get_address (pass1 ["(X)", "@0", "(X)", "@1"] 0 SymbolTable.new)
      ("X") = some 0 := by
  decide

/-- C4 amended: a label command emits no word, and after pass 1 each label name
maps to the instruction-memory address of the next non-label command following
the FIRST label command bearing that name (or to the total non-label count when
none follows), the counter starting at 0 and incremented only for non-labels. -/
theorem c4_amended_labels (cs : List String) (j : Nat) (h : j < cs.length)
    (hl : Parser.command_type (cs.get ⟨j, h⟩) = CmdKind.L_COMMAND)
    (hfirst : ∀ c' ∈ cs.take j, Parser.command_type c' = CmdKind.L_COMMAND →
      Parser.symbol c' ≠ Parser.symbol (cs.get ⟨j, h⟩))
    (c : String) (cs' : List String) (t : SymbolTable) (ram : Nat)
    (hc : Parser.command_type c = CmdKind.L_COMMAND) :
    SymbolTable.get_address (pass1 cs 0 SymbolTable.new)
        (Parser.symbol (cs.get ⟨j, h⟩)) = some (nextInstrAddr cs j) ∧
    pass2 (c :: cs') t ram = pass2 cs' t ram := by
  constructor
  · rw [nextInstrAddr_label cs j h hl]
    have hres := pass1_lookup cs j 0 SymbolTable.new h hl hfirst rfl
    simpa using hres
  · exact pass2_label_cons c cs' t ram hc

/-- C4 witness: in `["(LOOP)", "@LOOP", "0;JMP"]` the label `LOOP` maps to the
address of the next non-label command, and a label command emits nothing. -/
theorem c4_amended_labels_witness :
    SymbolTable.get_address (pass1 [("(LOOP)"), ("@LOOP"), ("0;JMP")] 0 SymbolTable.new)
        (Parser.symbol (([("(LOOP)"), ("@LOOP"), ("0;JMP")] : List String).get
          ⟨0, by decide⟩)) =
      some (nextInstrAddr [("(LOOP)"), ("@LOOP"), ("0;JMP")] 0) ∧
    pass2 [("(Y)")] SymbolTable.new 16 = pass2 [] SymbolTable.new 16 :=
  c4_amended_labels [("(LOOP)"), ("@LOOP"), ("0;JMP")] 0 (by decide) (by decide)
    (by decide) ("(Y)") [] SymbolTable.new 16 (by decide)

/-- C5: when pass 2 (started on the pass-1 table with RAM counter 16) completes,
the freshly allocated symbols `allocTrace` — the first references, in order of
appearance, to address-command symbols that are not digit strings, not labels
from pass 1 (nor otherwise in the table), and not predefined — are distinct and
the final table maps the i-th of them to address 16 + i, the final RAM counter
having advanced by one per allocation; and a symbol already in the table
resolves to its stored address with table and counter unchanged (no fresh
allocation on later references). -/
theorem c5_variable_allocation (cs : List String) (ws : List String)
    (tf : SymbolTable) (rf : Nat)
    (h : pass2 cs (pass1 cs 0 SymbolTable.new) 16 = Except.ok (ws, tf, rf)) :
    (allocTrace cs (pass1 cs 0 SymbolTable.new) 16).Nodup ∧
    rf = 16 + (allocTrace cs (pass1 cs 0 SymbolTable.new) 16).length ∧
    (∀ i (hi : i < (allocTrace cs (pass1 cs 0 SymbolTable.new) 16).length),
      SymbolTable.get_address tf
        ((allocTrace cs (pass1 cs 0 SymbolTable.new) 16).get ⟨i, hi⟩) =
        some (16 + i)) ∧
    (∀ s ∈ allocTrace cs (pass1 cs 0 SymbolTable.new) 16,
      SymbolTable.contains (pass1 cs 0 SymbolTable.new) s = false ∧
        isDigitStr s.data = false ∧
        lookupTable predefined_variable_symbols s = none) ∧
    (∀ (t : SymbolTable) (ram : Nat) (s : String),
      isDigitStr s.data = false → SymbolTable.contains t s = true →
      resolveA t ram s = ((SymbolTable.get_address t s).getD 0, t, ram)) := by
  obtain ⟨h1, h2⟩ := pass2_alloc cs _ 16 ws tf rf h
  exact ⟨allocTrace_nodup cs _ 16, h1, h2,
    fun s hs => allocTrace_mem cs _ 16 s hs,
    fun t ram s hd hc => resolveA_contains t ram s hd hc⟩

/-- C5 witness: on `["@i", "(L)", "@i", "@j"]` the second distinct new variable
`j` is allocated address 17 = 16 + 1 in the final table. -/
theorem c5_variable_allocation_witness :
    SymbolTable.get_address [(("j"), 17), (("i"), 16), (("L"), 1)]
      ((allocTrace [("@i"), ("(L)"), ("@i"), ("@j")]
        (pass1 [("@i"), ("(L)"), ("@i"), ("@j")] 0 SymbolTable.new) 16).get
          ⟨1, by decide⟩) = some (16 + 1) := by
  have h := c5_variable_allocation [("@i"), ("(L)"), ("@i"), ("@j")]
    [("0000000000010000"), ("0000000000010000"), ("0000000000010001")]
    [(("j"), 17), (("i"), 16), (("L"), 1)] 18 (by rfl)
  exact h.2.2.1 1 (by decide)

/-- C6 counterexample: on the computation command `D=A=B` (which contains `=`
but no `;`), the source decomposition returns `A` — Python `split("=")[1]` is
the segment between the first and second `=` — while the claim's four-case
rule (`compClaim`, the substring after the first `=`) returns `A=B`. -/
theorem c6_counterexample :
    Parser.comp ("D=A=B") = ("A") ∧ compClaim ("D=A=B") = ("A=B") := by
  decide

/-- C6 amended: the four-case rule holds for commands decomposed as
`dest=comp;jump`, `dest=comp`, `comp;jump` or bare `comp`, in which the dest
and comp parts contain neither `=` nor `;` and the jump part contains no `=`:
`computation()` then returns exactly the comp part in all four cases. -/
theorem c6_amended_comp (d cm j : List Char)
    (hd1 : hasChar d '=' = false) (hd2 : hasChar d ';' = false)
    (hc1 : hasChar cm '=' = false) (hc2 : hasChar cm ';' = false)
    (hj : hasChar j '=' = false) :
    Parser.comp ⟨d ++ '=' :: (cm ++ ';' :: j)⟩ = ⟨cm⟩ ∧
    Parser.comp ⟨d ++ '=' :: cm⟩ = ⟨cm⟩ ∧
    Parser.comp ⟨cm ++ ';' :: j⟩ = ⟨cm⟩ ∧
    Parser.comp ⟨cm⟩ = ⟨cm⟩ := by
  refine ⟨?_, ?_, ?_, ?_⟩
  · have h1 : hasChar (d ++ '=' :: (cm ++ ';' :: j)) '=' = true := by
      rw [hasChar_append]
      simp [hasChar]
    have h2 : hasChar (d ++ '=' :: (cm ++ ';' :: j)) ';' = true := by
      rw [hasChar_append]
      simp [hasChar, hasChar_append]
    have h3 : hasChar (cm ++ ';' :: j) '=' = false := by
      rw [hasChar_append]
      simp [hasChar, hc1, hj]
    simp only [Parser.comp, h1, h2, if_true]
    rw [afterChar_append_cons d _ '=' hd1, beforeChar_of_not _ '=' h3,
      beforeChar_append_cons cm j ';' hc2]
  · have h1 : hasChar (d ++ '=' :: cm) '=' = true := by
      rw [hasChar_append]
      simp [hasChar]
    have h2 : hasChar (d ++ '=' :: cm) ';' = false := by
      rw [hasChar_append]
      simp [hasChar, hd2, hc2]
    simp only [Parser.comp, h1, h2, if_true, Bool.false_eq_true, if_false]
    rw [afterChar_append_cons d cm '=' hd1, beforeChar_of_not cm '=' hc1]
  · have h1 : hasChar (cm ++ ';' :: j) '=' = false := by
      rw [hasChar_append]
      simp [hasChar, hc1, hj]
    simp only [Parser.comp, h1, Bool.false_eq_true, if_false]
    rw [beforeChar_append_cons cm j ';' hc2]
  · simp only [Parser.comp, hc1, Bool.false_eq_true, if_false]
    rw [beforeChar_of_not cm ';' hc2]

/-- C6 witness: the four structured command shapes built from `D`, `A`, `J`. -/
theorem c6_amended_comp_witness :
    Parser.comp ("D=A;J") = ("A") ∧ Parser.comp ("D=A") = ("A") ∧
    Parser.comp ("A;J") = ("A") ∧ Parser.comp ("A") = ("A") :=
  c6_amended_comp [('D')] [('A')] [('J')] (by decide) (by decide) (by decide)
    (by decide) (by decide)

/-- C7: a computation command whose computation mnemonic misses the 28-entry
table makes `encodeC` fail with the UnknownMnemonic error naming that mnemonic;
any such command anywhere in the stream makes the whole pass-2 run return an
error (no word list is produced at all); and conversely every mnemonic in the
table looks up successfully to its 7-character code. -/
theorem c7_unknown_mnemonic :
    (∀ c : String, lookupTable comp_table (Parser.comp c) = none →
      encodeC c = Except.error (AsmErr.unknownMnemonic (Parser.comp c))) ∧
    (∀ (cs : List String) (t : SymbolTable) (ram : Nat) (c : String),
      c ∈ cs → Parser.command_type c = CmdKind.C_COMMAND →
      lookupTable comp_table (Parser.comp c) = none →
      ∃ m, pass2 cs t ram = Except.error (AsmErr.unknownMnemonic m)) ∧
    (∀ p ∈ comp_table, lookupTable comp_table p.1 = some p.2 ∧ p.2.length = 7) := by
  refine ⟨?_, pass2_error_of_bad_comp, by decide⟩
  intro c h
  simp [encodeC, h]

/-- C7 witness: `M=Q` has the unknown computation mnemonic `Q`, and the table
mnemonic `D+A` has the 7-bit code `0000010`. -/
theorem c7_unknown_mnemonic_witness :
    encodeC ("M=Q") = Except.error (AsmErr.unknownMnemonic (Parser.comp ("M=Q"))) ∧
    lookupTable comp_table ("D+A") = some ("0000010") :=
  ⟨c7_unknown_mnemonic.1 ("M=Q") (by decide),
   (c7_unknown_mnemonic.2.2 (("D+A"), ("0000010")) (by decide)).1⟩

/-- C8: re-inserting an existing key leaves the table unchanged (first writer
wins), and after an insertion under an already-present key the lookup still
returns the address the key was first inserted with. -/
theorem c8_first_writer_wins (t : SymbolTable) (s : String) (a a' : Nat) :
    (SymbolTable.contains t s = true → SymbolTable.add_entry t s a' = t) ∧
    (SymbolTable.get_address t s = some a →
      SymbolTable.get_address (SymbolTable.add_entry t s a') s = some a) :=
  ⟨fun h => add_entry_of_contains t s a' h,
   fun h => get_address_add_entry_of_some t s s a' a h⟩

/-- C8 witness: inserting `x ↦ 2` over an existing `x ↦ 1` is a no-op. -/
theorem c8_first_writer_wins_witness :
    SymbolTable.add_entry [(("x"), 1)] ("x") 2 = [(("x"), 1)] ∧
    SymbolTable.get_address (SymbolTable.add_entry [(("x"), 1)] ("x") 2) ("x") =
      some 1 :=
  ⟨(c8_first_writer_wins [(("x"), 1)] ("x") 1 2).1 (by decide),
   (c8_first_writer_wins [(("x"), 1)] ("x") 1 2).2 (by decide)⟩

/-- C9: an address command whose symbol is a literal decimal integer
`n ≥ 32768` emits a word strictly longer than 16 characters: a leading `0`
prepended to the `≥ 16`-digit binary representation of `n`, with no truncation
or modular reduction (the word's binary value is still `n`). -/
theorem c9_wide_literal (s : String) (cs : List String) (t : SymbolTable) (ram : Nat)
    (hd : isDigitStr s.data = true) (hn : 32768 ≤ strToNat s.data) :
    pass2 (⟨'@' :: s.data⟩ :: cs) t ram =
      consWord (encodeAddr (strToNat s.data)) (pass2 cs t ram) ∧
    16 < (encodeAddr (strToNat s.data)).length ∧
    (encodeAddr (strToNat s.data)).data = '0' :: binDigits (strToNat s.data) ∧
    16 ≤ (binDigits (strToNat s.data)).length ∧
    bitsVal (encodeAddr (strToNat s.data)).data = strToNat s.data := by
  obtain ⟨hdata, hlen⟩ := encodeAddr_wide (strToNat s.data) hn
  refine ⟨?_, ?_, hdata, hlen, ?_⟩
  · rw [pass2_at_cons]
    simp only [resolveA_digit t ram s hd]
  · show 16 < (encodeAddr (strToNat s.data)).data.length
    rw [hdata]
    simp only [List.length_cons]
    omega
  · rw [hdata, bitsVal_cons_zero, bitsVal_binDigits]

/-- C9 witness: `@32768` emits a 17-character word. -/
theorem c9_wide_literal_witness :
    pass2 [("@32768")] SymbolTable.new 16 =
      consWord (encodeAddr 32768) (pass2 [] SymbolTable.new 16) ∧
    16 < (encodeAddr 32768).length ∧
    (encodeAddr 32768).data = '0' :: binDigits 32768 ∧
    16 ≤ (binDigits 32768).length ∧
    bitsVal (encodeAddr 32768).data = 32768 :=
  c9_wide_literal ("32768") [] SymbolTable.new 16 (by decide) (by decide)

/-- C10: when a non-digit symbol is already in the symbol table (for example a
label registered in pass 1, even one spelling a predefined name), a pass-2
address command referencing it emits the word for the table's address — the
table is consulted before the predefined dictionary, which is never reached —
and the table and RAM counter are unchanged. -/
theorem c10_label_shadows_predefined (t : SymbolTable) (ram : Nat) (s : String)
    (cs : List String) (a : Nat)
    (hc : SymbolTable.contains t s = true)
    (hp : lookupTable predefined_variable_symbols s = some a) :
    pass2 (⟨'@' :: s.data⟩ :: cs) t ram =
      consWord (encodeAddr ((SymbolTable.get_address t s).getD 0))
        (pass2 cs t ram) := by
  have hd : isDigitStr s.data = false := predef_not_digit s a hp
  rw [pass2_at_cons]
  simp only [resolveA_contains t ram s hd hc]

/-- C10 witness: with the label `SCREEN ↦ 1` from pass 1, `@SCREEN` emits the
word for address 1, not for the predefined 16384. -/
theorem c10_label_shadows_predefined_witness :
    pass2 [("@SCREEN")] [(("SCREEN"), 1)] 16 =
      consWord (encodeAddr ((SymbolTable.get_address [(("SCREEN"), 1)]
        ("SCREEN")).getD 0)) (pass2 [] [(("SCREEN"), 1)] 16) :=
  c10_label_shadows_predefined [(("SCREEN"), 1)] 16 ("SCREEN") [] 16384
    (by decide) (by decide)
